import Mathlib

/-!
Verification of the CompactSize codec and the UTXO registry implemented in
main.py. The codec (classes CompactSizeEncoder / CompactSizeDecoder) is a
pair of pure functions on byte sequences; bytes are modelled as natural
numbers below 256 and byte strings as lists. Python's arbitrary-precision
integers are modelled by Nat / Int, and a raised ValueError is modelled by
the Except error channel with the two error kinds of the design (InvalidValue
for the encoder's range check, TooShort for every decoder failure).
The UTXO registry (class UTXOSet) stores a Python set of
(transaction id, output index, amount) triples, modelled as a Finset.
-/

namespace CompactSize

/-- Error kinds: InvalidValue models the ValueError raised by
CompactSizeEncoder.encode on out-of-range input, TooShort models every
ValueError raised by CompactSizeDecoder.decode. -/
inductive CSErr where
  | InvalidValue : CSErr
  | TooShort : CSErr
deriving DecidableEq, Repr

/-- Embedding of Python's value.to_bytes(n, byteorder='little') for
0 <= value < 256^n: the list of n little-endian base-256 digits. -/
def toBytesLE : Nat → Nat → List Nat
  | 0, _ => []
  | n + 1, v => v % 256 :: toBytesLE n (v / 256)

/-- Embedding of Python's int.from_bytes(data, byteorder='little'). -/
def fromBytesLE : List Nat → Nat
  | [] => 0
  | b :: rest => b + 256 * fromBytesLE rest

/-- Embedding of CompactSizeEncoder.encode (main.py lines 38-50). The input
is an Int so that the negative side of the range check at line 40 is
represented; the isinstance check at line 38 is subsumed by the typed domain. -/
def encode (value : Int) : Except CSErr (List Nat) :=
  if value < 0 ∨ (0xFFFFFFFFFFFFFFFF : Int) < value then
    Except.error CSErr.InvalidValue
  else
    if value.toNat < 0xFD then Except.ok [value.toNat]
    else if value.toNat ≤ 0xFFFF then Except.ok (0xFD :: toBytesLE 2 value.toNat)
    else if value.toNat ≤ 0xFFFFFFFF then Except.ok (0xFE :: toBytesLE 4 value.toNat)
    else Except.ok (0xFF :: toBytesLE 8 value.toNat)

/-- Embedding of CompactSizeDecoder.decode (main.py lines 83-102). Python's
slice data[1:k+1] is (data.drop 1).take k. The final else branch at
line 101-102 raises the same ValueError as the length checks, hence also
maps to TooShort. -/
def decode (data : List Nat) : Except CSErr (Nat × Nat) :=
  match data with
  | [] => Except.error CSErr.TooShort
  | first_byte :: _ =>
    if first_byte < 0xFD then Except.ok (first_byte, 1)
    else if first_byte = 0xFD then
      if data.length < 3 then Except.error CSErr.TooShort
      else Except.ok (fromBytesLE ((data.drop 1).take 2), 3)
    else if first_byte = 0xFE then
      if data.length < 5 then Except.error CSErr.TooShort
      else Except.ok (fromBytesLE ((data.drop 1).take 4), 5)
    else if first_byte = 0xFF then
      if data.length < 9 then Except.error CSErr.TooShort
      else Except.ok (fromBytesLE ((data.drop 1).take 8), 9)
    else Except.error CSErr.TooShort

/-- Boolean tracking whether decode reaches its final else branch
(main.py lines 101-102), i.e. the first byte matches none of the four tags. -/
def decode_else_branch (data : List Nat) : Bool :=
  match data with
  | [] => false
  | first_byte :: _ =>
    !(decide (first_byte < 0xFD)) && !(first_byte == 0xFD) &&
      !(first_byte == 0xFE) && !(first_byte == 0xFF)

end CompactSize

namespace UTXOReg

/-- A UTXO triple (transaction_id_hex, vout_index, amount_satoshi), as built
by UTXOSet.add_utxo (main.py line 287). -/
abbrev UTXO := String × Nat × Nat

/-- Embedding of class UTXOSet (main.py lines 270-375): its only state is
self.utxos, a Python set of UTXO tuples, modelled as a Finset. -/
structure UTXOSet where
  utxos : Finset UTXO
deriving DecidableEq

/-- Embedding of UTXOSet.add_utxo (main.py lines 280-289). -/
def add_utxo (s : UTXOSet) (tx_id : String) (vout_index : Nat) (amount : Nat) :
    UTXOSet :=
  UTXOSet.mk (insert (tx_id, vout_index, amount) s.utxos)

/-- Embedding of UTXOSet.remove_utxo (main.py lines 291-306): the updated
registry together with the returned Bool. -/
def remove_utxo (s : UTXOSet) (tx_id : String) (vout_index : Nat)
    (amount : Nat) : UTXOSet × Bool :=
  if (tx_id, vout_index, amount) ∈ s.utxos then
    (UTXOSet.mk (s.utxos.erase (tx_id, vout_index, amount)), true)
  else (s, false)

/-- Embedding of UTXOSet.get_balance (main.py lines 308-314): Python's sum
over the set of the amount components. -/
def get_balance (s : UTXOSet) : Nat :=
  s.utxos.sum fun u => u.2.2

/-- Lexicographic order on UTXO triples, used only to enumerate a Finset as
a concrete list: Python iterates a set in an unspecified order before
handing the elements to sorted(), and this order fixes one such enumeration. -/
def utxoLE (u v : UTXO) : Prop :=
  u.1 < v.1 ∨ (u.1 = v.1 ∧ (u.2.1 < v.2.1 ∨ (u.2.1 = v.2.1 ∧ u.2.2 ≤ v.2.2)))

instance : DecidableRel utxoLE := fun u v =>
  inferInstanceAs (Decidable (u.1 < v.1 ∨
    (u.1 = v.1 ∧ (u.2.1 < v.2.1 ∨ (u.2.1 = v.2.1 ∧ u.2.2 ≤ v.2.2)))))

instance : IsTrans UTXO utxoLE := by
  constructor
  intro a b c hab hbc
  rcases hab with h1 | ⟨e1, h1⟩ <;> rcases hbc with h2 | ⟨e2, h2⟩
  · exact Or.inl (lt_trans h1 h2)
  · exact Or.inl (e2 ▸ h1)
  · exact Or.inl (e1 ▸ h2)
  · refine Or.inr ⟨e1.trans e2, ?_⟩
    rcases h1 with g1 | ⟨f1, g1⟩ <;> rcases h2 with g2 | ⟨f2, g2⟩ <;> omega

instance : IsAntisymm UTXO utxoLE := by
  constructor
  intro a b hab hba
  rcases a with ⟨a1, a2, a3⟩
  rcases b with ⟨b1, b2, b3⟩
  simp only [utxoLE] at hab hba
  obtain h | ⟨e1, h⟩ := hab
  · obtain h' | ⟨e1', h'⟩ := hba
    · exact absurd (lt_trans h h') (lt_irrefl a1)
    · exact absurd (e1' ▸ h) (lt_irrefl _)
  · obtain h' | ⟨e1', h'⟩ := hba
    · exact absurd (e1 ▸ h') (lt_irrefl _)
    · subst e1
      simp only [Prod.mk.injEq, true_and]
      omega

instance : IsTotal UTXO utxoLE := by
  constructor
  intro a b
  unfold utxoLE
  rcases lt_trichotomy a.1 b.1 with h | h | h
  · exact Or.inl (Or.inl h)
  · rcases Nat.lt_trichotomy a.2.1 b.2.1 with h2 | h2 | h2
    · exact Or.inl (Or.inr ⟨h, Or.inl h2⟩)
    · rcases Nat.le_total a.2.2 b.2.2 with h3 | h3
      · exact Or.inl (Or.inr ⟨h, Or.inr ⟨h2, h3⟩⟩)
      · exact Or.inr (Or.inr ⟨h.symm, Or.inr ⟨h2.symm, h3⟩⟩)
    · exact Or.inr (Or.inr ⟨h.symm, Or.inl h2⟩)
  · exact Or.inr (Or.inl h)

/-- Embedding of UTXOSet.find_sufficient_utxos (main.py lines 316-342): the
held UTXOs are enumerated (Python set iteration, in an arbitrary order fixed
here as the utxoLE order) and sorted by amount descending
(sorted(..., key=lambda x: x[2], reverse=True), line 331); the loop (lines
333-335) adds every sorted UTXO to sufficient_utxos and accumulates
current_sum; the full accumulated set is returned when current_sum >=
target_amount (lines 337-339) and the empty set otherwise (line 342). -/
def find_sufficient_utxos (s : UTXOSet) (target_amount : Nat) : Finset UTXO :=
  let sorted_utxos :=
    (s.utxos.sort utxoLE).mergeSort fun x y => decide (y.2.2 ≤ x.2.2)
  let r := sorted_utxos.foldl
    (fun acc utxo => (insert utxo acc.1, acc.2 + utxo.2.2))
    ((∅ : Finset UTXO), 0)
  if target_amount ≤ r.2 then r.1 else ∅

/-- Embedding of UTXOSet.get_total_utxo_count (main.py lines 343-349). -/
def get_total_utxo_count (s : UTXOSet) : Nat :=
  s.utxos.card

/-- Embedding of UTXOSet.is_subset_of (main.py lines 351-357), via Python's
set.issubset. -/
def is_subset_of (s other_utxo_set : UTXOSet) : Bool :=
  decide (s.utxos ⊆ other_utxo_set.utxos)

/-- Embedding of UTXOSet.combine_utxos (main.py lines 359-366): a new
UTXOSet whose collection is the set union. -/
def combine_utxos (s other_utxo_set : UTXOSet) : UTXOSet :=
  UTXOSet.mk (s.utxos ∪ other_utxo_set.utxos)

/-- Embedding of UTXOSet.find_common_utxos (main.py lines 368-375): a new
UTXOSet whose collection is the set intersection. -/
def find_common_utxos (s other_utxo_set : UTXOSet) : UTXOSet :=
  UTXOSet.mk (s.utxos ∩ other_utxo_set.utxos)

/-- A store of UTXO collections: Python object identity is modelled by the
index of a cell, each cell holding the utxos field of one registry object. -/
abbrev Store := List (Finset UTXO)

/-- Heap-level embedding of UTXOSet.combine_utxos (main.py lines 359-366):
UTXOSet() appends a fresh cell initialised to the empty set (line 364,
with __init__ at line 278); self.utxos.union(other.utxos) is Python's
non-mutating set.union builtin, producing a new collection that is assigned
to the fresh registry's cell (line 365). Returns the updated store and the
index of the returned registry. -/
def combine_utxos_heap (σ : Store) (self other : Nat) : Store × Nat :=
  ((σ ++ [∅]).set σ.length
      ((σ ++ [∅]).getD self ∅ ∪ (σ ++ [∅]).getD other ∅),
    σ.length)

/-- Heap-level embedding of UTXOSet.find_common_utxos (main.py lines
368-375), analogous to combine_utxos_heap with Python's non-mutating
set.intersection builtin. -/
def find_common_utxos_heap (σ : Store) (self other : Nat) : Store × Nat :=
  ((σ ++ [∅]).set σ.length
      ((σ ++ [∅]).getD self ∅ ∩ (σ ++ [∅]).getD other ∅),
    σ.length)

/-- Concrete registry holding ("a", 0, 500) and ("b", 1, 1500), used as the
example in the spec. -/
def exampleRegistry : UTXOSet :=
  add_utxo (add_utxo (UTXOSet.mk ∅) "a" 0 500) "b" 1 1500

/-- Concrete two-registry store used to instantiate the heap-level theorems. -/
def exampleStore : Store :=
  [{("a", 0, 1)}, {("a", 0, 1), ("b", 2, 7)}]

end UTXOReg

namespace CompactSize

theorem length_toBytesLE (n v : Nat) : (toBytesLE n v).length = n := by
  induction n generalizing v with
  | zero => rfl
  | succ n ih => simp [toBytesLE, ih]

theorem fromBytesLE_toBytesLE (n v : Nat) (h : v < 256 ^ n) :
    fromBytesLE (toBytesLE n v) = v := by
  induction n generalizing v with
  | zero =>
    interval_cases v
    rfl
  | succ n ih =>
    have hd : v / 256 < 256 ^ n := by
      rw [Nat.div_lt_iff_lt_mul (by norm_num : (0:Nat) < 256)]
      calc v < 256 ^ (n + 1) := h
        _ = 256 ^ n * 256 := by ring
    simp only [toBytesLE, fromBytesLE, ih _ hd]
    exact Nat.mod_add_div v 256

theorem encode_natCast (v : Nat) (h : v < 2 ^ 64) :
    encode (v : Int) =
      (if v < 0xFD then Except.ok [v]
       else if v ≤ 0xFFFF then Except.ok (0xFD :: toBytesLE 2 v)
       else if v ≤ 0xFFFFFFFF then Except.ok (0xFE :: toBytesLE 4 v)
       else Except.ok (0xFF :: toBytesLE 8 v)) := by
  have h1 : ¬((v : Int) < 0 ∨ (0xFFFFFFFFFFFFFFFF : Int) < (v : Int)) := by
    omega
  simp only [encode, if_neg h1, Int.toNat_natCast]

theorem decode_tagSmall (b : Nat) (rest : List Nat) (h : b < 0xFD) :
    decode (b :: rest) = Except.ok (b, 1) := by
  simp [decode, h]

theorem decode_tagFD (rest : List Nat) (h : 2 ≤ rest.length) :
    decode (0xFD :: rest) = Except.ok (fromBytesLE (rest.take 2), 3) := by
  have hlen : ¬((0xFD :: rest).length < 3) := by
    simp only [List.length_cons]
    omega
  simp [decode, hlen]
  omega

theorem decode_tagFE (rest : List Nat) (h : 4 ≤ rest.length) :
    decode (0xFE :: rest) = Except.ok (fromBytesLE (rest.take 4), 5) := by
  have hlen : ¬((0xFE :: rest).length < 5) := by
    simp only [List.length_cons]
    omega
  simp [decode, hlen]
  omega

theorem decode_tagFF (rest : List Nat) (h : 8 ≤ rest.length) :
    decode (0xFF :: rest) = Except.ok (fromBytesLE (rest.take 8), 9) := by
  have hlen : ¬((0xFF :: rest).length < 9) := by
    simp only [List.length_cons]
    omega
  simp [decode, hlen]
  omega

theorem take_toBytesLE (n v : Nat) : (toBytesLE n v).take n = toBytesLE n v :=
  List.take_of_length_le (by rw [length_toBytesLE])

/-- C1: for every integer v in [0, 2^64-1], decoding the encoder's output
round-trips: decode (encode v) returns the pair (v, len (encode v)). -/
theorem decode_encode_roundTrip (v : Nat) (h : v < 2 ^ 64) :
    ∃ bs, encode (v : Int) = Except.ok bs ∧ decode bs = Except.ok (v, bs.length) := by
  rw [encode_natCast v h]
  by_cases h1 : v < 0xFD
  · exact ⟨[v], by rw [if_pos h1], by simp [decode_tagSmall v [] h1]⟩
  · by_cases h2 : v ≤ 0xFFFF
    · refine ⟨0xFD :: toBytesLE 2 v, by rw [if_neg h1, if_pos h2], ?_⟩
      rw [decode_tagFD _ (by rw [length_toBytesLE]), take_toBytesLE,
        fromBytesLE_toBytesLE 2 v (by norm_num; omega)]
      simp [length_toBytesLE]
    · by_cases h3 : v ≤ 0xFFFFFFFF
      · refine ⟨0xFE :: toBytesLE 4 v, by rw [if_neg h1, if_neg h2, if_pos h3], ?_⟩
        rw [decode_tagFE _ (by rw [length_toBytesLE]), take_toBytesLE,
          fromBytesLE_toBytesLE 4 v (by norm_num; omega)]
        simp [length_toBytesLE]
      · refine ⟨0xFF :: toBytesLE 8 v, by rw [if_neg h1, if_neg h2, if_neg h3], ?_⟩
        rw [decode_tagFF _ (by rw [length_toBytesLE]), take_toBytesLE,
          fromBytesLE_toBytesLE 8 v (by norm_num; omega)]
        simp [length_toBytesLE]

theorem decode_encode_roundTrip_witness :
    ∃ bs, encode ((300 : Nat) : Int) = Except.ok bs ∧
      decode bs = Except.ok (300, bs.length) :=
  decode_encode_roundTrip 300 (by norm_num)

/-- C3: encode produces exactly the minimal little-endian layout — the single
byte v when v <= 252, 0xFD plus 2 little-endian bytes for 253..65535, 0xFE
plus 4 bytes for 65536..4294967295, 0xFF plus 8 bytes otherwise — so the
output length is 1, 3, 5 or 9 on those ranges, with the boundary examples
encode 252 = [252], encode 253 = [0xFD, 253, 0], encode 65536 =
[0xFE, 0, 0, 1, 0]. -/
theorem encode_minimal_layout (v : Nat) (h : v < 2 ^ 64) :
    (∃ bs, encode (v : Int) = Except.ok bs ∧
      bs = (if v ≤ 252 then [v]
            else if v ≤ 65535 then 0xFD :: toBytesLE 2 v
            else if v ≤ 4294967295 then 0xFE :: toBytesLE 4 v
            else 0xFF :: toBytesLE 8 v) ∧
      bs.length = (if v ≤ 252 then 1 else if v ≤ 65535 then 3
                   else if v ≤ 4294967295 then 5 else 9)) ∧
    encode ((252 : Nat) : Int) = Except.ok [252] ∧
    encode ((253 : Nat) : Int) = Except.ok [0xFD, 253, 0] ∧
    encode ((65536 : Nat) : Int) = Except.ok [0xFE, 0, 0, 1, 0] := by
  refine ⟨?_, by rfl, by rfl, by rfl⟩
  rw [encode_natCast v h]
  by_cases h1 : v < 0xFD
  · have h1' : v ≤ 252 := by omega
    exact ⟨[v], by rw [if_pos h1], by rw [if_pos h1'], by simp [h1']⟩
  · have h1' : ¬(v ≤ 252) := by omega
    by_cases h2 : v ≤ 0xFFFF
    · refine ⟨0xFD :: toBytesLE 2 v, by rw [if_neg h1, if_pos h2], ?_, ?_⟩
      · rw [if_neg h1', if_pos h2]
      · simp [h1', h2, length_toBytesLE]
    · by_cases h3 : v ≤ 0xFFFFFFFF
      · refine ⟨0xFE :: toBytesLE 4 v, by rw [if_neg h1, if_neg h2, if_pos h3], ?_, ?_⟩
        · rw [if_neg h1', if_neg h2, if_pos h3]
        · simp [h1', h2, h3, length_toBytesLE]
      · refine ⟨0xFF :: toBytesLE 8 v, by rw [if_neg h1, if_neg h2, if_neg h3], ?_, ?_⟩
        · rw [if_neg h1', if_neg h2, if_neg h3]
        · simp [h1', h2, h3, length_toBytesLE]

theorem encode_minimal_layout_witness :
    (∃ bs, encode ((70000 : Nat) : Int) = Except.ok bs ∧
      bs = (if 70000 ≤ 252 then [70000]
            else if 70000 ≤ 65535 then 0xFD :: toBytesLE 2 70000
            else if 70000 ≤ 4294967295 then 0xFE :: toBytesLE 4 70000
            else 0xFF :: toBytesLE 8 70000) ∧
      bs.length = (if 70000 ≤ 252 then 1 else if 70000 ≤ 65535 then 3
                   else if 70000 ≤ 4294967295 then 5 else 9)) ∧
    encode ((252 : Nat) : Int) = Except.ok [252] ∧
    encode ((253 : Nat) : Int) = Except.ok [0xFD, 253, 0] ∧
    encode ((65536 : Nat) : Int) = Except.ok [0xFE, 0, 0, 1, 0] :=
  encode_minimal_layout 70000 (by norm_num)

/-- C5: encode fails with InvalidValue exactly when its input lies outside
[0, 18446744073709551615] (non-integer inputs being excluded by the typed
domain); in particular encode (-1) and encode (2^64) fail with InvalidValue,
and no error other than InvalidValue can be produced (an Except.error result
carries no bytes). -/
theorem encode_invalidValue_iff (v : Int) :
    (encode v = Except.error CSErr.InvalidValue ↔
      v < 0 ∨ (18446744073709551615 : Int) < v) ∧
    (∀ e, encode v = Except.error e → e = CSErr.InvalidValue) ∧
    encode (-1) = Except.error CSErr.InvalidValue ∧
    encode (2 ^ 64) = Except.error CSErr.InvalidValue := by
  have hpow : ((2 : Int) ^ 64) = 18446744073709551616 := by norm_num
  refine ⟨?_, ?_, by rfl, by rw [hpow]; rfl⟩
  · by_cases hg : v < 0 ∨ (0xFFFFFFFFFFFFFFFF : Int) < v
    · rw [encode, if_pos hg]
      simpa using hg
    · rw [encode, if_neg hg]
      constructor
      · intro hc
        split_ifs at hc
      · intro hc
        exact absurd hc hg
  · intro e hc
    rw [encode] at hc
    split_ifs at hc
    exact (Except.error.inj hc).symm

/-- C4: decode fails with TooShort exactly when the input is empty or the
first byte is the tag 0xFD / 0xFE / 0xFF with fewer than 3 / 5 / 9 total
bytes available; in particular decode [] and decode [0xFD, 0x01] fail with
TooShort, and a failing decode returns no (value, consumed) pair. -/
theorem decode_tooShort_iff (data : List Nat) (hb : ∀ b ∈ data, b < 256) :
    (decode data = Except.error CSErr.TooShort ↔
      data = [] ∨ (data.headD 0 = 0xFD ∧ data.length < 3) ∨
        (data.headD 0 = 0xFE ∧ data.length < 5) ∨
        (data.headD 0 = 0xFF ∧ data.length < 9)) ∧
    (∀ e p, decode data = Except.error e → decode data ≠ Except.ok p) ∧
    decode [] = Except.error CSErr.TooShort ∧
    decode [0xFD, 0x01] = Except.error CSErr.TooShort := by
  refine ⟨?_, ?_, by rfl, by rfl⟩
  · cases data with
    | nil => simp [decode]
    | cons b rest =>
      have hb0 : b < 256 := hb b (List.mem_cons_self b rest)
      simp only [decode, List.headD_cons, List.length_cons]
      split_ifs with h1 h2 h3 h4 h5 h6 h7 <;> simp_all <;> omega
  · intro e p he hok
    rw [he] at hok
    exact Except.noConfusion hok

theorem decode_tooShort_iff_witness :
    ((decode [0xFE, 1, 2] = Except.error CSErr.TooShort ↔
      [0xFE, 1, 2] = ([] : List Nat) ∨
        (([0xFE, 1, 2] : List Nat).headD 0 = 0xFD ∧ ([0xFE, 1, 2] : List Nat).length < 3) ∨
        (([0xFE, 1, 2] : List Nat).headD 0 = 0xFE ∧ ([0xFE, 1, 2] : List Nat).length < 5) ∨
        (([0xFE, 1, 2] : List Nat).headD 0 = 0xFF ∧ ([0xFE, 1, 2] : List Nat).length < 9)) ∧
      (∀ e p, decode [0xFE, 1, 2] = Except.error e →
        decode [0xFE, 1, 2] ≠ Except.ok p) ∧
      decode [] = Except.error CSErr.TooShort ∧
      decode [0xFD, 0x01] = Except.error CSErr.TooShort) :=
  decode_tooShort_iff [0xFE, 1, 2] (by decide)

/-- C6: decode does not require the minimal prefix form — decode
[0xFD, 0x05, 0x00] = (5, 3) — and its result depends only on the consumed
prefix: appending arbitrary trailing bytes to a successfully decoded input
leaves the returned (value, consumed) pair unchanged. -/
theorem decode_ignores_trailing (data extra : List Nat) (v c : Nat)
    (h : decode data = Except.ok (v, c)) :
    decode (data ++ extra) = Except.ok (v, c) ∧
    decode [0xFD, 0x05, 0x00] = Except.ok (5, 3) := by
  refine ⟨?_, by rfl⟩
  cases data with
  | nil => exact absurd h (by simp [decode])
  | cons b rest =>
    rw [List.cons_append]
    by_cases h1 : b < 0xFD
    · rw [decode_tagSmall b rest h1] at h
      rw [decode_tagSmall b _ h1]
      exact h
    · by_cases h2 : b = 0xFD
      · subst h2
        by_cases hl : 2 ≤ rest.length
        · rw [decode_tagFD rest hl] at h
          rw [decode_tagFD (rest ++ extra) (by rw [List.length_append]; omega),
            List.take_append_of_le_length hl]
          exact h
        · rw [decode, if_neg (by omega), if_pos rfl,
            if_pos (by simp only [List.length_cons]; omega)] at h
          exact Except.noConfusion h
      · by_cases h3 : b = 0xFE
        · subst h3
          by_cases hl : 4 ≤ rest.length
          · rw [decode_tagFE rest hl] at h
            rw [decode_tagFE (rest ++ extra) (by rw [List.length_append]; omega),
              List.take_append_of_le_length hl]
            exact h
          · rw [decode, if_neg (by omega), if_neg (by omega), if_pos rfl,
              if_pos (by simp only [List.length_cons]; omega)] at h
            exact Except.noConfusion h
        · by_cases h4 : b = 0xFF
          · subst h4
            by_cases hl : 8 ≤ rest.length
            · rw [decode_tagFF rest hl] at h
              rw [decode_tagFF (rest ++ extra) (by rw [List.length_append]; omega),
                List.take_append_of_le_length hl]
              exact h
            · rw [decode, if_neg (by omega), if_neg (by omega), if_neg (by omega),
                if_pos rfl, if_pos (by simp only [List.length_cons]; omega)] at h
              exact Except.noConfusion h
          · rw [decode, if_neg h1, if_neg h2, if_neg h3, if_neg h4] at h
            exact Except.noConfusion h

theorem decode_ignores_trailing_witness :
    decode ([0xFD, 0x05, 0x00] ++ [0x07, 0x09]) = Except.ok (5, 3) ∧
    decode [0xFD, 0x05, 0x00] = Except.ok (5, 3) :=
  decode_ignores_trailing [0xFD, 0x05, 0x00] [0x07, 0x09] 5 3 (by rfl)

/-- C10: on non-empty input whose first byte is a genuine byte value
(< 256), the first byte always matches one of the four tag cases, so the
final else branch of decode is unreachable, and decode on such input either
returns a pair or fails solely because too few bytes are available for the
indicated prefix. -/
theorem decode_else_unreachable (first_byte : Nat) (rest : List Nat)
    (h : first_byte < 256) :
    decode_else_branch (first_byte :: rest) = false ∧
    (first_byte < 0xFD ∨ first_byte = 0xFD ∨ first_byte = 0xFE ∨
      first_byte = 0xFF) ∧
    (∀ e, decode (first_byte :: rest) = Except.error e →
      e = CSErr.TooShort ∧
      ((first_byte = 0xFD ∧ (first_byte :: rest).length < 3) ∨
       (first_byte = 0xFE ∧ (first_byte :: rest).length < 5) ∨
       (first_byte = 0xFF ∧ (first_byte :: rest).length < 9))) := by
  refine ⟨?_, by omega, ?_⟩
  · have hc : first_byte < 0xFD ∨ first_byte = 0xFD ∨ first_byte = 0xFE ∨
        first_byte = 0xFF := by omega
    simp only [decode_else_branch]
    rcases hc with h' | h' | h' | h' <;> simp [h']
  · intro e he
    simp only [decode] at he
    split_ifs at he with h1 h2 h3 h4 h5 h6 h7
    · exact ⟨(Except.error.inj he).symm, Or.inl ⟨h2, h3⟩⟩
    · exact ⟨(Except.error.inj he).symm, Or.inr (Or.inl ⟨h4, h5⟩)⟩
    · exact ⟨(Except.error.inj he).symm, Or.inr (Or.inr ⟨h6, h7⟩)⟩
    · omega

theorem decode_else_unreachable_witness :
    decode_else_branch [0xFE] = false ∧
    ((0xFE : Nat) < 0xFD ∨ (0xFE : Nat) = 0xFD ∨ (0xFE : Nat) = 0xFE ∨
      (0xFE : Nat) = 0xFF) ∧
    (∀ e, decode [0xFE] = Except.error e →
      e = CSErr.TooShort ∧
      (((0xFE : Nat) = 0xFD ∧ ([0xFE] : List Nat).length < 3) ∨
       ((0xFE : Nat) = 0xFE ∧ ([0xFE] : List Nat).length < 5) ∨
       ((0xFE : Nat) = 0xFF ∧ ([0xFE] : List Nat).length < 9))) :=
  decode_else_unreachable 0xFE [] (by norm_num)

end CompactSize

namespace UTXOReg

theorem foldl_insert_sum (l : List UTXO) (s0 : Finset UTXO) (n0 : Nat) :
    l.foldl (fun acc utxo => (insert utxo acc.1, acc.2 + utxo.2.2)) (s0, n0) =
      (s0 ∪ l.toFinset, n0 + (l.map fun u => u.2.2).sum) := by
  induction l generalizing s0 n0 with
  | nil => simp
  | cons u l ih =>
    simp only [List.foldl_cons, ih, List.toFinset_cons, List.map_cons,
      List.sum_cons, Prod.mk.injEq]
    constructor
    · rw [Finset.insert_union, Finset.union_insert]
    · omega

theorem find_sufficient_utxos_eq (s : UTXOSet) (t : Nat) :
    find_sufficient_utxos s t = if t ≤ get_balance s then s.utxos else ∅ := by
  have hperm :
      ((s.utxos.sort utxoLE).mergeSort fun x y => decide (y.2.2 ≤ x.2.2)).Perm
        s.utxos.toList :=
    (List.mergeSort_perm _ _).trans (Finset.sort_perm_toList _ _)
  have hfin :
      ((s.utxos.sort utxoLE).mergeSort fun x y =>
        decide (y.2.2 ≤ x.2.2)).toFinset = s.utxos := by
    apply Finset.ext
    intro u
    rw [List.mem_toFinset, hperm.mem_iff, ← List.mem_toFinset,
      Finset.toList_toFinset]
  have hsum :
      (((s.utxos.sort utxoLE).mergeSort fun x y => decide (y.2.2 ≤ x.2.2)).map
        fun u => u.2.2).sum = get_balance s := by
    rw [(hperm.map _).sum_eq, Finset.sum_to_list]
    rfl
  simp only [find_sufficient_utxos, foldl_insert_sum, Finset.empty_union,
    Nat.zero_add, hfin, hsum]

/-- C2: for every registry whose held UTXOs sum to less than target,
find_sufficient_utxos returns the empty set; for every registry whose full
sum reaches target, it returns the complete set of held UTXOs — never a
proper non-empty subset. -/
theorem find_sufficient_policy (s : UTXOSet) (target : Nat) :
    (get_balance s < target → find_sufficient_utxos s target = ∅) ∧
    (target ≤ get_balance s → find_sufficient_utxos s target = s.utxos) := by
  constructor
  · intro h
    rw [find_sufficient_utxos_eq, if_neg (by omega)]
  · intro h
    rw [find_sufficient_utxos_eq, if_pos h]

theorem find_sufficient_policy_witness :
    find_sufficient_utxos exampleRegistry 3000 = ∅ ∧
    find_sufficient_utxos exampleRegistry 2000 = exampleRegistry.utxos :=
  ⟨(find_sufficient_policy exampleRegistry 3000).1 (by decide),
   (find_sufficient_policy exampleRegistry 2000).2 (by decide)⟩

/-- C7: balance is the exact arithmetic sum of the amount fields of the held
UTXOs — adding a fresh UTXO grows it by exactly that amount, the empty
registry has balance 0, balance equals the plain list sum of the amounts
(arithmetic is over unbounded naturals, as Python's int: no silent
wraparound), and the spec's example registry has balance 2000. -/
theorem get_balance_exact (s : UTXOSet) (tx_id : String) (vout a : Nat)
    (h : (tx_id, vout, a) ∉ s.utxos) :
    get_balance (add_utxo s tx_id vout a) = get_balance s + a ∧
    get_balance (UTXOSet.mk ∅) = 0 ∧
    (∀ r : UTXOSet, get_balance r = (r.utxos.toList.map fun u => u.2.2).sum) ∧
    get_balance exampleRegistry = 2000 := by
  refine ⟨?_, by rfl, ?_, by decide⟩
  · unfold get_balance add_utxo
    rw [Finset.sum_insert h, Nat.add_comm]
  · intro r
    exact (Finset.sum_to_list _ _).symm

theorem get_balance_exact_witness :
    get_balance (add_utxo (UTXOSet.mk ∅) "c" 2 42) =
      get_balance (UTXOSet.mk ∅) + 42 ∧
    get_balance (UTXOSet.mk ∅) = 0 ∧
    (∀ r : UTXOSet, get_balance r = (r.utxos.toList.map fun u => u.2.2).sum) ∧
    get_balance exampleRegistry = 2000 :=
  get_balance_exact (UTXOSet.mk ∅) "c" 2 42 (by decide)

/-- C8: for every two registries A and B, the union has at least
max (A.count, B.count) elements, and the intersection is a subset of A. -/
theorem union_count_inter_subset (A B : UTXOSet) :
    max (get_total_utxo_count A) (get_total_utxo_count B) ≤
      get_total_utxo_count (combine_utxos A B) ∧
    is_subset_of (find_common_utxos A B) A = true := by
  constructor
  · exact max_le (Finset.card_le_card Finset.subset_union_left)
      (Finset.card_le_card Finset.subset_union_right)
  · simp only [is_subset_of, find_common_utxos, decide_eq_true_eq]
    exact Finset.inter_subset_left

theorem getD_append_lt (σ : Store) (i : Nat) (hi : i < σ.length) :
    (σ ++ [(∅ : Finset UTXO)]).getD i ∅ = σ.getD i ∅ := by
  rw [List.getD_eq_getElem?_getD, List.getD_eq_getElem?_getD,
    List.getElem?_append_left hi]

theorem set_new_getD_old (σ : Store) (c : Finset UTXO) (i : Nat)
    (hi : i < σ.length) :
    ((σ ++ [∅]).set σ.length c).getD i ∅ = σ.getD i ∅ := by
  have hne : σ.length ≠ i := by omega
  rw [List.getD_eq_getElem?_getD, List.getElem?_set_ne hne,
    ← List.getD_eq_getElem?_getD, getD_append_lt σ i hi]

theorem set_new_getD_new (σ : Store) (c : Finset UTXO) :
    ((σ ++ [∅]).set σ.length c).getD σ.length ∅ = c := by
  rw [List.getD_eq_getElem?_getD,
    List.getElem?_set_self (by simp)]
  rfl

/-- C9: union (combine_utxos) and intersection (find_common_utxos) construct
and return a freshly constructed registry — a store cell distinct from both
inputs — holding a new collection equal to the value-level union resp.
intersection, and leave the collections held by both input registries
unchanged. -/
theorem heap_ops_fresh_and_frame (σ : Store) (a b : Nat)
    (ha : a < σ.length) (hb : b < σ.length) :
    ((combine_utxos_heap σ a b).2 ≠ a ∧ (combine_utxos_heap σ a b).2 ≠ b ∧
      (combine_utxos_heap σ a b).1.getD a ∅ = σ.getD a ∅ ∧
      (combine_utxos_heap σ a b).1.getD b ∅ = σ.getD b ∅ ∧
      (combine_utxos_heap σ a b).1.getD (combine_utxos_heap σ a b).2 ∅ =
        (combine_utxos (UTXOSet.mk (σ.getD a ∅))
          (UTXOSet.mk (σ.getD b ∅))).utxos) ∧
    ((find_common_utxos_heap σ a b).2 ≠ a ∧
      (find_common_utxos_heap σ a b).2 ≠ b ∧
      (find_common_utxos_heap σ a b).1.getD a ∅ = σ.getD a ∅ ∧
      (find_common_utxos_heap σ a b).1.getD b ∅ = σ.getD b ∅ ∧
      (find_common_utxos_heap σ a b).1.getD (find_common_utxos_heap σ a b).2 ∅ =
        (find_common_utxos (UTXOSet.mk (σ.getD a ∅))
          (UTXOSet.mk (σ.getD b ∅))).utxos) := by
  constructor
  · refine ⟨Nat.ne_of_gt ha, Nat.ne_of_gt hb, set_new_getD_old σ _ a ha,
      set_new_getD_old σ _ b hb, ?_⟩
    exact (set_new_getD_new σ _).trans
      (by rw [getD_append_lt σ a ha, getD_append_lt σ b hb]; rfl)
  · refine ⟨Nat.ne_of_gt ha, Nat.ne_of_gt hb, set_new_getD_old σ _ a ha,
      set_new_getD_old σ _ b hb, ?_⟩
    exact (set_new_getD_new σ _).trans
      (by rw [getD_append_lt σ a ha, getD_append_lt σ b hb]; rfl)

theorem heap_ops_fresh_and_frame_witness :
    ((combine_utxos_heap exampleStore 0 1).2 ≠ 0 ∧
      (combine_utxos_heap exampleStore 0 1).2 ≠ 1 ∧
      (combine_utxos_heap exampleStore 0 1).1.getD 0 ∅ =
        exampleStore.getD 0 ∅ ∧
      (combine_utxos_heap exampleStore 0 1).1.getD 1 ∅ =
        exampleStore.getD 1 ∅ ∧
      (combine_utxos_heap exampleStore 0 1).1.getD
          (combine_utxos_heap exampleStore 0 1).2 ∅ =
        (combine_utxos (UTXOSet.mk (exampleStore.getD 0 ∅))
          (UTXOSet.mk (exampleStore.getD 1 ∅))).utxos) ∧
    ((find_common_utxos_heap exampleStore 0 1).2 ≠ 0 ∧
      (find_common_utxos_heap exampleStore 0 1).2 ≠ 1 ∧
      (find_common_utxos_heap exampleStore 0 1).1.getD 0 ∅ =
        exampleStore.getD 0 ∅ ∧
      (find_common_utxos_heap exampleStore 0 1).1.getD 1 ∅ =
        exampleStore.getD 1 ∅ ∧
      (find_common_utxos_heap exampleStore 0 1).1.getD
          (find_common_utxos_heap exampleStore 0 1).2 ∅ =
        (find_common_utxos (UTXOSet.mk (exampleStore.getD 0 ∅))
          (UTXOSet.mk (exampleStore.getD 1 ∅))).utxos) :=
  heap_ops_fresh_and_frame exampleStore 0 1 (by decide) (by decide)

end UTXOReg
